import Mathlib

/-!
# Verification of the atuyka pagination engine and service registry

A shallow embedding of `atuyka/services/base/paginator.py` and
`atuyka/services/base/client.py`, with theorems about the embedded
operations.

Modelling conventions:
* An async page endpoint is a pure function `ι → Except ε (Page α ι)`:
  it either raises an error `ε` or returns one page (items plus the
  optional parameters of the following page).
* An async iterator feeding the merged paginator is an `ASource`:
  a finite list of items followed by either normal exhaustion
  (`terminal = none`, Python's `StopAsyncIteration`) or an error raised
  on the pull after the last item (`terminal = some e`).
* `heapq` heaps store tuples `(sort_value, order, value, iterator)` whose
  orders are pairwise distinct in every reachable state, so the minimum
  is unique and the heap is observationally an extract-min container.
  We model it as a plain list with an extract-min operation `popMin`.
* Python's `StopAsyncIteration`-based termination is modelled by the
  `PullResult.exhausted` constructor; an uncaught exception by
  `PullResult.error`.
* Iteration loops (`__anext__` driven draining) are run with explicit
  fuel; `heapSize h + 1` fuel is always enough for a heap `h`.
-/

/-- `atuyka.services.base.models.Page`, restricted to the fields the
paginator reads: the item list and the `next` parameter mapping
(`none` exactly when the producer asserts no further pages exist). -/
structure Page (α ι : Type) where
  items : List α
  next : Option ι
  deriving DecidableEq, Repr

/-- Result of one `__anext__` call: an item with the successor state,
a `StopAsyncIteration` signal, or a propagated exception. -/
inductive PullResult (ε α σ : Type) where
  | item (value : α) (state : σ)
  | exhausted (state : σ)
  | error (err : ε) (state : σ)
  deriving DecidableEq, Repr

/-- How a finite drain of a paginator ended. -/
inductive RunEnd (ε : Type) where
  | exhausted
  | error (err : ε)
  | fuelOut
  deriving DecidableEq, Repr

/-- Collected output of a drain: the yielded items in order, the way
the drain ended, and the final paginator state. -/
structure RunOut (ε α σ : Type) where
  items : List α
  outcome : RunEnd ε
  final : σ
  deriving DecidableEq, Repr

/-- Python truthiness test `self.limit and self._counter >= self.limit`
from `BufferedPaginator.__anext__` / `MergedPaginator.__anext__`:
a `None` or `0` limit never triggers, otherwise the counter is compared
against the limit. -/
def limitTruthy : Option Nat → Nat → Bool
  | none, _ => false
  | some n, c => n != 0 && Nat.ble n c

/-- Mutable state of `UniversalPaginator` (a `BufferedPaginator`):
`_buffer` (`none` means exhausted, mirroring `self._buffer = None`),
`_next_params` of the next fetch, and the `_counter` of yielded items.
The immutable `limit` is passed separately to the operations. -/
structure BufState (α ι : Type) where
  buffer : Option (List α)
  nextParams : Option ι
  counter : Nat
  deriving DecidableEq, Repr

/-- The state of a freshly constructed `UniversalPaginator`:
`_buffer = iter(())`, `_next_params = {}` (modelled by the initial
parameter value `p0`), `_counter = 0`. -/
def freshBuf (p0 : ι) : BufState α ι := ⟨some [], some p0, 0⟩

/-- `BufferedPaginator.__anext__` specialised by
`UniversalPaginator.next_page`.  Faithful control flow:
1. `if not self._buffer: self._complete()` — only `None` is falsy for an
   iterator, so this fires exactly when the buffer is the exhaustion
   sentinel;
2. the limit check (`_complete` sets the buffer to `None`);
3. `self._counter += 1`;
4. `next(self._buffer)` — take from the current buffer if non-empty;
5. otherwise `next_page()`: with no stored parameters return `None`
   (→ `_complete`), else call the endpoint — an endpoint error
   propagates leaving buffer and parameters untouched — store
   `page.next`, and an empty item list `_complete`s, otherwise the new
   buffer yields its first item. -/
def universalPull (f : ι → Except ε (Page α ι)) (limit : Option Nat) (s : BufState α ι) :
    PullResult ε α (BufState α ι) :=
  match s.buffer with
  | none => .exhausted s
  | some buf =>
    if limitTruthy limit s.counter then
      .exhausted { s with buffer := none }
    else
      match buf with
      | a :: rest => .item a { s with buffer := some rest, counter := s.counter + 1 }
      | [] =>
        match s.nextParams with
        | none => .exhausted { s with buffer := none, counter := s.counter + 1 }
        | some p =>
          match f p with
          | .error e => .error e { s with counter := s.counter + 1 }
          | .ok page =>
            match page.items with
            | [] => .exhausted { s with buffer := none, nextParams := page.next,
                                        counter := s.counter + 1 }
            | a :: rest => .item a { s with buffer := some rest, nextParams := page.next,
                                            counter := s.counter + 1 }

/-- Drain a `UniversalPaginator` with the given fuel, collecting the
yielded items in order. -/
def universalRun (f : ι → Except ε (Page α ι)) (limit : Option Nat) :
    Nat → BufState α ι → RunOut ε α (BufState α ι)
  | 0, s => ⟨[], .fuelOut, s⟩
  | n + 1, s =>
    match universalPull f limit s with
    | .exhausted s' => ⟨[], .exhausted, s'⟩
    | .error e s' => ⟨[], .error e, s'⟩
    | .item a s' =>
      ⟨a :: (universalRun f limit n s').items,
       (universalRun f limit n s').outcome,
       (universalRun f limit n s').final⟩

/-- The endpoint of the spec's two-page example: page `0` is
`[a, b]` with `next = 1`, page `1` is `[c]` with `next = None`. -/
def twoPageFetch : Nat → Except Unit (Page String Nat)
  | 0 => .ok ⟨["a", "b"], some 1⟩
  | 1 => .ok ⟨["c"], none⟩
  | _ => .ok ⟨[], none⟩

/-- An endpoint whose fetch always raises. -/
def failingFetch : Nat → Except String (Page String Nat) :=
  fun _ => .error "boom"

/-- A source fed to `MergedPaginator`: a finite async iterator that
yields `items` in order and then, on the following pull, either raises
`StopAsyncIteration` (`terminal = none`) or raises the error
`terminal = some e`. -/
structure ASource (ε α : Type) where
  items : List α
  terminal : Option ε
  deriving DecidableEq, Repr

/-- A `MergedPaginator` heap tuple `(sort_value, order, value, iterator)`
as built by `MergedPaginator._create_heap_item`: the sort key computed
once per value, the per-source tie-break order, the value, and the rest
of the source it came from. -/
structure HeapEntry (ε α : Type) where
  sortKey : Nat
  order : Nat
  value : α
  rest : List α
  terminal : Option ε
  deriving DecidableEq, Repr

/-- The items an entry still accounts for: its value plus its source's
remaining items. -/
def entryItems (e : HeapEntry ε α) : List α := e.value :: e.rest

/-- Number of items an entry accounts for. -/
def entrySize (e : HeapEntry ε α) : Nat := e.rest.length + 1

/-- Total number of items a heap accounts for. -/
def heapSize (h : List (HeapEntry ε α)) : Nat := (h.map entrySize).sum

/-- The Python tuple comparison `(sort_value, order, ...) <= ...`,
lexicographic on the sort key and the tie-break order.  Reachable heaps
have pairwise distinct orders, so the later tuple components are never
compared. -/
def entryLE (a b : HeapEntry ε α) : Bool :=
  Nat.blt a.sortKey b.sortKey || (Nat.beq a.sortKey b.sortKey && Nat.ble a.order b.order)

/-- Extract the minimum entry (`heapq.heappop` / `self._heap[0]`) from a
heap modelled as an unordered list, returning it together with the
remaining entries. -/
def popMin : List (HeapEntry ε α) → Option (HeapEntry ε α × List (HeapEntry ε α))
  | [] => none
  | e :: rest =>
    match popMin rest with
    | none => some (e, [])
    | some (m, rest') => if entryLE e m then some (e, rest) else some (m, e :: rest')

/-- Mutable state of a prepared `MergedPaginator`: the heap and the
counter of yielded items.  The immutable `limit` is passed separately. -/
structure MergedState (ε α : Type) where
  heap : List (HeapEntry ε α)
  counter : Nat
  deriving DecidableEq, Repr

/-- `MergedPaginator.__anext__` after `_prepare` has run.  Faithful
control flow:
1. `if not self._heap: self._complete()` (which clears the heap);
2. the limit check, again clearing the heap on `_complete`;
3. `self._counter += 1`;
4. peek the minimum tuple `(_, order, value, it)` and pull the next
   value of that same source: on `StopAsyncIteration` pop the tuple and
   return `value`; on another exception propagate it, leaving the heap
   untouched; otherwise `heapreplace` with a new tuple carrying the same
   `order` and return `value`. -/
def mergedPull (key : α → Nat) (limit : Option Nat) (s : MergedState ε α) :
    PullResult ε α (MergedState ε α) :=
  match popMin s.heap with
  | none => .exhausted ⟨[], s.counter⟩
  | some (e, h') =>
    if limitTruthy limit s.counter then .exhausted ⟨[], s.counter⟩
    else
      match e.rest with
      | v :: r => .item e.value ⟨⟨key v, e.order, v, r, e.terminal⟩ :: h', s.counter + 1⟩
      | [] =>
        match e.terminal with
        | none => .item e.value ⟨h', s.counter + 1⟩
        | some err => .error err ⟨s.heap, s.counter + 1⟩

/-- Drain a prepared `MergedPaginator` with the given fuel. -/
def mergedRun (key : α → Nat) (limit : Option Nat) :
    Nat → MergedState ε α → RunOut ε α (MergedState ε α)
  | 0, s => ⟨[], .fuelOut, s⟩
  | n + 1, s =>
    match mergedPull key limit s with
    | .exhausted s' => ⟨[], .exhausted, s'⟩
    | .error e s' => ⟨[], .error e, s'⟩
    | .item a s' =>
      ⟨a :: (mergedRun key limit n s').items,
       (mergedRun key limit n s').outcome,
       (mergedRun key limit n s').final⟩

/-- `MergedPaginator._prepare`: concurrently pull the first value of
every source (`asyncio.gather(..., return_exceptions=True)`), then walk
the results in registration order `i`: a `StopAsyncIteration` drops the
source (consuming its order index), any other exception is re-raised,
and a value becomes the heap tuple `(key(value), i, value, iterator)`. -/
def prepareE (key : α → Nat) : Nat → List (ASource ε α) → Except ε (List (HeapEntry ε α))
  | _, [] => .ok []
  | i, src :: rest =>
    match src.items with
    | v :: r =>
      match prepareE key (i + 1) rest with
      | .error e => .error e
      | .ok hs => .ok (⟨key v, i, v, r, src.terminal⟩ :: hs)
    | [] =>
      match src.terminal with
      | none => prepareE key (i + 1) rest
      | some e => .error e

/-- Drain a freshly constructed `MergedPaginator`: `_prepare` on the
first pull (a preparation error propagates with nothing yielded), then
pull until exhaustion; `heapSize + 1` fuel always suffices. -/
def mergedDrainAll (key : α → Nat) (limit : Option Nat) (sources : List (ASource ε α)) :
    RunOut ε α (MergedState ε α) :=
  match prepareE key 0 sources with
  | .error e => ⟨[], .error e, ⟨[], 0⟩⟩
  | .ok h => mergedRun key limit (heapSize h + 1) ⟨h, 0⟩

/-- Tag every item of every source with its source's registration index
(starting at `n`), turning the sources into error-free `ASource`s.
Instrumentation for attributing merged output items to their source. -/
def tagSourcesFrom : Nat → List (List α) → List (ASource Unit (Nat × α))
  | _, [] => []
  | n, s :: rest => ⟨s.map (fun x => (n, x)), none⟩ :: tagSourcesFrom (n + 1) rest

/-- Plain finite lists as error-free merge sources. -/
def pureSources (sources : List (List α)) : List (ASource Unit α) :=
  sources.map (fun s => ⟨s, none⟩)

/-- The heap `heapq.merge(*lists, key=key)` starts from: one tuple
`(key(first), order, first, rest)` per non-empty input list, in order. -/
def heapqPrepare (key : α → Nat) : Nat → List (List α) → List (HeapEntry Unit α)
  | _, [] => []
  | i, [] :: rest => heapqPrepare key (i + 1) rest
  | i, (v :: r) :: rest => ⟨key v, i, v, r, none⟩ :: heapqPrepare key (i + 1) rest

/-- The `heapq.merge` main loop: repeatedly pop the minimum tuple, yield
its value, and `heapreplace` with the next value of the same input
(keeping its order) or retire the input once drained. -/
def heapqRun (key : α → Nat) : Nat → List (HeapEntry Unit α) → List α
  | 0, _ => []
  | n + 1, h =>
    match popMin h with
    | none => []
    | some (e, h') =>
      match e.rest with
      | [] => e.value :: heapqRun key n h'
      | v :: r => e.value :: heapqRun key n (⟨key v, e.order, v, r, none⟩ :: h')

/-- `heapq.merge(*lists, key=key)`, fully materialised. -/
def heapqMerge (key : α → Nat) (lists : List (List α)) : List α :=
  heapqRun key (heapSize (heapqPrepare key 0 lists) + 1) (heapqPrepare key 0 lists)

/-- Python slicing `xs[:limit]` with an optional bound. -/
def listSlice (limit : Option Nat) (l : List α) : List α :=
  match limit with
  | none => l
  | some n => l.take n

/-- `MergedPaginator.flatten` on its eager path (taken whenever
`limit is None`, in particular for the default call): drain every
source fully and concurrently, merge the resulting lists with
`heapq.merge`, and apply the `[: self.limit]` slice.  Draining a finite
error-free source yields exactly its item list. -/
def mergedFlattenEager (key : α → Nat) (limit : Option Nat) (sources : List (List α)) :
    List α :=
  listSlice limit (heapqMerge key sources)

/-- What `ServiceMethod.from_method` reads off a Python method: its
`__name__`, its `__doc__`, and its keyword-only parameters (name and
annotation) in signature order. -/
structure MethodModel where
  name : String
  doc : Option String
  kwOnlyParams : List (String × String)
  deriving DecidableEq, Repr

/-- `atuyka.services.base.client.ServiceMethodParameter`. -/
structure ServiceMethodParameter where
  name : String
  description : Option String
  type : String
  deriving DecidableEq, Repr

/-- `atuyka.services.base.client.ServiceMethod`. -/
structure ServiceMethod where
  name : String
  description : String
  parameters : List ServiceMethodParameter
  deriving DecidableEq, Repr

/-- Python `str.replace(old, new, 1)` on character lists: rewrite the
leftmost occurrence of `old` (assumed non-empty), leave the string
unchanged if `old` does not occur. -/
def replaceFirstChars (old repl : List Char) : List Char → List Char
  | [] => []
  | c :: rest =>
    if old.isPrefixOf (c :: rest) then repl ++ (c :: rest).drop old.length
    else c :: replaceFirstChars old repl rest

/-- Python `s.replace(old, new, 1)`. -/
def replaceFirst (old repl s : String) : String :=
  ⟨replaceFirstChars old.data repl.data s.data⟩

/-- `ServiceMethod.from_method`: `name` is `method.__name__` with the
first occurrence of `"get_"` removed, `description` is
`method.__doc__ or ""` (the whole docstring), and the parameter list
holds one entry per keyword-only parameter with its annotation as type
and no description. -/
def ServiceMethod.fromMethod (m : MethodModel) : ServiceMethod where
  name := replaceFirst "get_" "" m.name
  description := match m.doc with | none => "" | some d => d
  parameters := m.kwOnlyParams.map (fun p => ⟨p.1, none, p.2⟩)

/-- Modelled from the spec: the operation name with a *leading*
`"get_"` prefix stripped (the spec's reading of the `name` field). -/
def stripLeadingGet (s : String) : String :=
  if ("get_".data).isPrefixOf s.data then ⟨s.data.drop 4⟩ else s

/-- Modelled from the spec: the first line of a documentation string
(the spec's reading of the `description` field). -/
def firstLine (s : String) : String :=
  ⟨s.data.takeWhile (fun c => c != '\n')⟩

/-- The docstring of `ServiceClient._proxy` (multi-line). -/
def proxyDoc : String :=
  "Proxy a url.\n\n        Returns a stream and headers.\n        "

/-- The method `ServiceClient._proxy` as seen by the metadata
extraction loop. -/
def proxyMethodModel : MethodModel := ⟨"_proxy", some proxyDoc, []⟩

/-- The members of `ServiceClient.__abstractmethods__` that the
registration loop in `ServiceClientMeta.__init__` extracts metadata for
(every abstract attribute that is callable when read off the class;
the abstract property `my_user_id` is not callable and is skipped),
with their names and docstrings from `client.py`.  None of them has a
keyword-only parameter. -/
def contractMethods : List MethodModel :=
  [⟨"__init__", none, []⟩,
   ⟨"get_user", some "Get user.", []⟩,
   ⟨"get_liked_posts", some "Get liked posts.", []⟩,
   ⟨"get_following", some "Get following users.", []⟩,
   ⟨"get_followers", some "Get followers.", []⟩,
   ⟨"get_posts", some "Get posts made by a user.", []⟩,
   ⟨"get_post", some "Get a post.", []⟩,
   ⟨"get_comments", some "Get comments.", []⟩,
   ⟨"get_similar_posts", some "Get similar posts.", []⟩,
   ⟨"get_following_feed", some "Get posts made by followed users.", []⟩,
   ⟨"get_recommended_feed", some "Get recommended posts.", []⟩,
   ⟨"search_posts", some "Search posts.", []⟩,
   ⟨"search_users", some "Search users.", []⟩,
   proxyMethodModel]

/-- The slice of `ServiceClientConfig` that `ServiceClientMeta.create`
consults: the slug and the authorization requirement. -/
structure ServiceRecord where
  slug : String
  requiresAuthorization : Bool
  deriving DecidableEq, Repr

/-- The error taxonomy of `ServiceClientMeta.create` /
`available_services`: `RuntimeError("No services loaded.")`,
`atuyka.errors.InvalidServiceError` (carrying the requested service and
the available slugs), and `atuyka.errors.MissingTokenError`. -/
inductive CreateError where
  | noServices
  | invalidService (service : String) (available : List String)
  | missingToken (service : String)
  deriving DecidableEq, Repr

/-- A constructed client: the record it was built from and the token
passed through unexamined. -/
structure ClientInstance where
  record : ServiceRecord
  token : Option String
  deriving DecidableEq, Repr

/-- The dict `{c.config.slug: c for c in subclasses}.get(service)`:
the last registered record wins for a duplicated slug. -/
def lookupService (services : List ServiceRecord) (slug : String) : Option ServiceRecord :=
  services.foldl (fun acc r => if r.slug = slug then some r else acc) none

/-- `ServiceClientMeta.create`, instrumented with the number of client
constructions it performs (the only place network activity could start).
`available_services` raises when the registry is empty; an unknown slug
raises `InvalidServiceError`; a slug requiring authorization raises
`MissingTokenError` when `token is None`; otherwise the client class is
instantiated with the token. -/
def create (services : List ServiceRecord) (service : String) (token : Option String) :
    Except CreateError ClientInstance × Nat :=
  if services.isEmpty then (.error .noServices, 0)
  else
    match lookupService services service with
    | none => (.error (.invalidService service (services.map (fun r => r.slug))), 0)
    | some r =>
      if r.requiresAuthorization && token.isNone then (.error (.missingToken service), 0)
      else (.ok ⟨r, token⟩, 1)

/-- The two single-item equal-key sources of the spec's stability
example, registered A before B. -/
def tieSourceA : ASource Unit (Nat × String) := ⟨[(1, "x")], none⟩

/-- Second source of the stability example. -/
def tieSourceB : ASource Unit (Nat × String) := ⟨[(1, "y")], none⟩

/-- A one-entry prepared merge state used to exercise a single
`heapreplace` step. -/
def tieStepState : MergedState Unit String := ⟨[⟨1, 0, "x", ["z"], none⟩], 0⟩

/-! ## Heap extraction lemmas -/

/-- `popMin` only fails on the empty heap. -/
theorem popMin_eq_none {ε α : Type} {h : List (HeapEntry ε α)} (hp : popMin h = none) :
    h = [] := by
  cases h with
  | nil => rfl
  | cons a rest =>
    unfold popMin at hp
    cases hrest : popMin rest with
    | none => rw [hrest] at hp; simp at hp
    | some p =>
      obtain ⟨m, rest'⟩ := p
      rw [hrest] at hp
      dsimp at hp
      split at hp <;> simp at hp

/-- `popMin` removes one occurrence, preserving the positions of the
remaining entries. -/
theorem popMin_decomp {ε α : Type} :
    ∀ {h : List (HeapEntry ε α)} {e : HeapEntry ε α} {h' : List (HeapEntry ε α)},
      popMin h = some (e, h') → ∃ l r, h = l ++ e :: r ∧ h' = l ++ r := by
  intro h
  induction h with
  | nil => intro e h' hp; simp [popMin] at hp
  | cons a rest ih =>
    intro e h' hp
    unfold popMin at hp
    cases hrest : popMin rest with
    | none =>
      rw [hrest] at hp
      dsimp at hp
      obtain ⟨he, hh⟩ := Prod.mk.injEq .. ▸ (Option.some.injEq .. ▸ hp)
      exact ⟨[], [], by simp [← he, popMin_eq_none hrest], by simp [← hh]⟩
    | some p =>
      obtain ⟨m, rest'⟩ := p
      rw [hrest] at hp
      dsimp at hp
      split at hp
      · obtain ⟨he, hh⟩ := Prod.mk.injEq .. ▸ (Option.some.injEq .. ▸ hp)
        exact ⟨[], rest, by simp [← he], by simp [← hh]⟩
      · obtain ⟨he, hh⟩ := Prod.mk.injEq .. ▸ (Option.some.injEq .. ▸ hp)
        obtain ⟨l', r', hrest_eq, hrest'_eq⟩ := ih hrest
        refine ⟨a :: l', r', ?_, ?_⟩
        · simp [hrest_eq, ← he]
        · simp [← hh, hrest'_eq]

/-- The popped entry is in the heap. -/
theorem popMin_mem {ε α : Type} {h h' : List (HeapEntry ε α)} {e : HeapEntry ε α}
    (hp : popMin h = some (e, h')) : e ∈ h := by
  obtain ⟨l, r, hh, _⟩ := popMin_decomp hp
  simp [hh]

/-- The remaining entries were in the heap. -/
theorem popMin_subset {ε α : Type} {h h' : List (HeapEntry ε α)} {e : HeapEntry ε α}
    (hp : popMin h = some (e, h')) : ∀ x ∈ h', x ∈ h := by
  obtain ⟨l, r, hh, hh'⟩ := popMin_decomp hp
  intro x hx
  rw [hh'] at hx
  rw [hh]
  rcases List.mem_append.1 hx with hl | hr
  · exact List.mem_append.2 (Or.inl hl)
  · exact List.mem_append.2 (Or.inr (List.mem_cons_of_mem _ hr))

/-- Popping accounts for exactly the popped entry's items. -/
theorem popMin_size {ε α : Type} {h h' : List (HeapEntry ε α)} {e : HeapEntry ε α}
    (hp : popMin h = some (e, h')) : heapSize h = entrySize e + heapSize h' := by
  obtain ⟨l, r, hh, hh'⟩ := popMin_decomp hp
  subst hh hh'
  simp [heapSize]
  omega

/-- Popping preserves pairwise distinctness of the tie-break orders and
removes every entry sharing the popped entry's order. -/
theorem popMin_orders {ε α : Type} {h h' : List (HeapEntry ε α)} {e : HeapEntry ε α}
    (hp : popMin h = some (e, h'))
    (hpw : List.Pairwise (fun a b => a.order ≠ b.order) h) :
    List.Pairwise (fun a b => a.order ≠ b.order) h' ∧ ∀ x ∈ h', x.order ≠ e.order := by
  obtain ⟨l, r, hh, hh'⟩ := popMin_decomp hp
  subst hh hh'
  rw [List.pairwise_append] at hpw
  obtain ⟨hl, hcr, hcross⟩ := hpw
  rw [List.pairwise_cons] at hcr
  obtain ⟨he_r, hr⟩ := hcr
  constructor
  · rw [List.pairwise_append]
    exact ⟨hl, hr, fun a ha b hb => hcross a ha b (List.mem_cons_of_mem _ hb)⟩
  · intro x hx
    rcases List.mem_append.1 hx with hxl | hxr
    · exact hcross x hxl e (List.mem_cons_self _ _)
    · exact Ne.symm (he_r x hxr)

/-! ## Buffered paginator claims -/

/-- C2: draining a `UniversalPaginator` over the endpoint returning
`[a, b]`/`next = 1` and then `[c]`/`next = None` yields exactly
`["a", "b", "c"]` and the exhaustion signal, the final state is marked
exhausted (`_buffer = None`), and every pull on an exhausted cursor
re-signals exhaustion without changing the state — it never yields an
item and never raises. -/
theorem universal_drain_two_pages :
    (universalRun twoPageFetch none 10 (freshBuf 0)).items = ["a", "b", "c"] ∧
    (universalRun twoPageFetch none 10 (freshBuf 0)).outcome = RunEnd.exhausted ∧
    (universalRun twoPageFetch none 10 (freshBuf 0)).final.buffer = none ∧
    (∀ {ε α ι : Type} (g : ι → Except ε (Page α ι)) (limit : Option Nat) (s : BufState α ι),
      s.buffer = none → universalPull g limit s = PullResult.exhausted s) := by
  refine ⟨rfl, rfl, rfl, ?_⟩
  intro ε α ι g limit s hbuf
  unfold universalPull
  rw [hbuf]

/-- Witness for C2: a concrete exhausted cursor re-signals exhaustion. -/
theorem universal_drain_two_pages_witness :
    universalPull twoPageFetch none (⟨none, none, 7⟩ : BufState String Nat) =
      PullResult.exhausted ⟨none, none, 7⟩ :=
  universal_drain_two_pages.2.2.2 twoPageFetch none ⟨none, none, 7⟩ rfl

/-- C3 counterexample: after a fetch error propagates out of a pull,
the cursor is *not* exhausted: the very next pull calls the fetch
callable again (with the same stored parameters) and propagates its
error again, instead of signalling exhaustion. -/
theorem buffered_fetch_error_not_exhausting :
    universalPull failingFetch none (freshBuf 0 : BufState String Nat) =
      PullResult.error "boom" ⟨some [], some 0, 1⟩ ∧
    universalPull failingFetch none (⟨some [], some 0, 1⟩ : BufState String Nat) =
      PullResult.error "boom" ⟨some [], some 0, 2⟩ :=
  ⟨rfl, rfl⟩

/-- C3 as amended: a fetch error propagates unmodified to the caller of
the pull, and the failed pull leaves the buffer and the stored next-page
parameters unchanged (only the counter advances) — the cursor is not
marked exhausted, so the next pull re-invokes the fetch callable with
the same parameters. -/
theorem buffered_fetch_error_propagates {ε α ι : Type} (f : ι → Except ε (Page α ι))
    (limit : Option Nat) (s : BufState α ι) (p : ι) (err : ε)
    (hbuf : s.buffer = some []) (hparams : s.nextParams = some p)
    (hf : f p = .error err) (hlim : limitTruthy limit s.counter = false) :
    universalPull f limit s = PullResult.error err ⟨some [], some p, s.counter + 1⟩ := by
  obtain ⟨b, np, c⟩ := s
  dsimp at hbuf hparams hlim ⊢
  subst hbuf hparams
  simp [universalPull, hlim, hf]

/-- Witness for the amended C3. -/
theorem buffered_fetch_error_propagates_witness :
    universalPull failingFetch none (freshBuf 0 : BufState String Nat) =
      PullResult.error "boom" ⟨some [], some 0, 1⟩ :=
  buffered_fetch_error_propagates failingFetch none (freshBuf 0) 0 "boom" rfl rfl rfl rfl

/-- C8: with `limit = 2` over the same two pages, draining yields
exactly `["a", "b"]` and then the exhaustion signal, although more data
exists upstream. -/
theorem universal_drain_limit_two :
    (universalRun twoPageFetch (some 2) 10 (freshBuf 0)).items = ["a", "b"] ∧
    (universalRun twoPageFetch (some 2) 10 (freshBuf 0)).outcome = RunEnd.exhausted :=
  ⟨rfl, rfl⟩

/-! ## Merged paginator: simple claims -/

/-- C9: a source that is exhausted at its very first pull is dropped by
`_prepare` without any error: merging an empty source A with B = `[1,2]`
yields exactly `[1, 2]` and ends in normal exhaustion, and in general an
immediately-exhausted source is skipped by preparation (consuming only
its registration order index). -/
theorem merged_empty_source_dropped :
    (mergedDrainAll (fun n : Nat => n) none
        [(⟨[], none⟩ : ASource Unit Nat), ⟨[1, 2], none⟩]).items = [1, 2] ∧
    (mergedDrainAll (fun n : Nat => n) none
        [(⟨[], none⟩ : ASource Unit Nat), ⟨[1, 2], none⟩]).outcome = RunEnd.exhausted ∧
    (∀ {ε α : Type} (key : α → Nat) (i : Nat) (rest : List (ASource ε α)),
        prepareE key i (⟨[], none⟩ :: rest) = prepareE key (i + 1) rest) :=
  ⟨rfl, rfl, fun _ _ _ => rfl⟩

/-- C5: merging A = `[(1, "x")]` and B = `[(1, "y")]` (equal sort keys,
registered A then B) yields `x` before `y`; moreover every entry of the
heap after a successful pull descends from an entry of the heap before
it with the *same* tie-break order and a suffix of its items — the
per-source rank assigned at registration never changes while the source
lives in the heap. -/
theorem merged_tie_registration_order :
    (mergedDrainAll (fun p => p.1) none [tieSourceA, tieSourceB]).items =
      [(1, "x"), (1, "y")] ∧
    (∀ {ε α : Type} (key : α → Nat) (limit : Option Nat) (s : MergedState ε α)
        (a : α) (s' : MergedState ε α),
      mergedPull key limit s = PullResult.item a s' →
      ∀ e2 ∈ s'.heap, ∃ e1 ∈ s.heap,
        e2.order = e1.order ∧ (entryItems e2).IsSuffix (entryItems e1)) := by
  refine ⟨rfl, ?_⟩
  intro ε α key limit s a s' hp e2 he2
  unfold mergedPull at hp
  cases hpop : popMin s.heap with
  | none => rw [hpop] at hp; simp at hp
  | some pr =>
    obtain ⟨e, h1⟩ := pr
    rw [hpop] at hp
    dsimp at hp
    split at hp
    · simp at hp
    · cases hrest : e.rest with
      | cons v r =>
        rw [hrest] at hp
        dsimp at hp
        injection hp with ha hs'
        subst hs'
        rcases List.mem_cons.1 he2 with h_new | h_old
        · refine ⟨e, popMin_mem hpop, ?_, ?_⟩
          · rw [h_new]
          · rw [h_new]
            show (v :: r).IsSuffix (e.value :: e.rest)
            rw [hrest]
            exact List.suffix_cons e.value (v :: r)
        · exact ⟨e2, popMin_subset hpop e2 h_old, rfl, List.suffix_refl _⟩
      | nil =>
        rw [hrest] at hp
        cases hterm : e.terminal with
        | none =>
          rw [hterm] at hp
          dsimp at hp
          injection hp with ha hs'
          subst hs'
          exact ⟨e2, popMin_subset hpop e2 he2, rfl, List.suffix_refl _⟩
        | some err => rw [hterm] at hp; simp at hp

/-- Witness for C5: one `heapreplace` step on a concrete one-entry heap
keeps the source's tie-break order. -/
theorem merged_tie_registration_order_witness :
    ∃ e1 ∈ tieStepState.heap,
      (⟨1, 0, "z", [], none⟩ : HeapEntry Unit String).order = e1.order ∧
      (entryItems (⟨1, 0, "z", [], none⟩ : HeapEntry Unit String)).IsSuffix (entryItems e1) :=
  merged_tie_registration_order.2 (fun _ => 1) none tieStepState "x"
    ⟨[⟨1, 0, "z", [], none⟩], 1⟩ rfl ⟨1, 0, "z", [], none⟩ (by simp)

/-! ## Limit-zero behaviour (C10) -/

/-- A pull with `limit = 0` behaves like a pull with no limit: Python's
`if self.limit` is false for `0`. -/
theorem universalPull_limit_zero {ε α ι : Type} (f : ι → Except ε (Page α ι))
    (s : BufState α ι) : universalPull f (some 0) s = universalPull f none s := rfl

/-- A merged pull with `limit = 0` behaves like one with no limit. -/
theorem mergedPull_limit_zero {ε α : Type} (key : α → Nat) (s : MergedState ε α) :
    mergedPull key (some 0) s = mergedPull key none s := rfl

/-- Draining with `limit = 0` equals draining with no limit. -/
theorem universalRun_limit_zero {ε α ι : Type} (f : ι → Except ε (Page α ι)) :
    ∀ (fuel : Nat) (s : BufState α ι),
      universalRun f (some 0) fuel s = universalRun f none fuel s := by
  intro fuel
  induction fuel with
  | zero => intro s; rfl
  | succ n ih =>
    intro s
    simp only [universalRun]
    rw [universalPull_limit_zero]
    cases universalPull f none s with
    | item a s' => simp [ih s']
    | exhausted s' => rfl
    | error e s' => rfl

/-- Merged draining with `limit = 0` equals draining with no limit. -/
theorem mergedRun_limit_zero {ε α : Type} (key : α → Nat) :
    ∀ (fuel : Nat) (s : MergedState ε α),
      mergedRun key (some 0) fuel s = mergedRun key none fuel s := by
  intro fuel
  induction fuel with
  | zero => intro s; rfl
  | succ n ih =>
    intro s
    simp only [mergedRun]
    rw [mergedPull_limit_zero]
    cases mergedPull key none s with
    | item a s' => simp [ih s']
    | exhausted s' => rfl
    | error e s' => rfl

/-- C10: constructing a `BufferedPaginator`/`MergedPaginator` with
`limit = 0` behaves exactly as if no limit were set — the limit check is
skipped on every pull and all upstream items are yielded, not zero
items. -/
theorem limit_zero_is_no_limit :
    (∀ {ε α ι : Type} (f : ι → Except ε (Page α ι)) (fuel : Nat) (s : BufState α ι),
        universalRun f (some 0) fuel s = universalRun f none fuel s) ∧
    (∀ {ε α : Type} (key : α → Nat) (fuel : Nat) (s : MergedState ε α),
        mergedRun key (some 0) fuel s = mergedRun key none fuel s) :=
  ⟨fun f fuel s => universalRun_limit_zero f fuel s,
   fun key fuel s => mergedRun_limit_zero key fuel s⟩

/-! ## Service registry (C6) -/

/-- A successful lookup implies the registry is non-empty. -/
theorem lookupService_ne_nil {services : List ServiceRecord} {slug : String}
    {r : ServiceRecord} (hlook : lookupService services slug = some r) :
    services ≠ [] := by
  intro hnil
  subst hnil
  simp [lookupService] at hlook

/-- C6: for a registered slug whose record requires authorization,
`create(slug)` with no token fails with the missing-credential error and
performs zero client constructions (hence no network activity). -/
theorem create_missing_token (services : List ServiceRecord) (slug : String)
    (r : ServiceRecord) (hlook : lookupService services slug = some r)
    (hauth : r.requiresAuthorization = true) :
    create services slug none = (Except.error (CreateError.missingToken slug), 0) := by
  cases services with
  | nil => exact absurd rfl (lookupService_ne_nil hlook)
  | cons a rest => simp [create, hlook, hauth]

/-- Witness for C6 on a one-record registry. -/
theorem create_missing_token_witness :
    create [⟨"twitter", true⟩] "twitter" none =
      (Except.error (CreateError.missingToken "twitter"), 0) :=
  create_missing_token [⟨"twitter", true⟩] "twitter" ⟨"twitter", true⟩ (by decide) rfl

/-! ## Endpoint metadata extraction (C4) -/

/-- C4 counterexample: the extracted `description` of the contract
operation `_proxy` is the *whole* docstring (`method.__doc__ or ""`),
not its first line — the two differ because `_proxy`'s documentation
has several lines. -/
theorem service_method_description_not_first_line :
    (ServiceMethod.fromMethod proxyMethodModel).description ≠
      firstLine (proxyMethodModel.doc.getD "") ∧
    (ServiceMethod.fromMethod proxyMethodModel).description = proxyDoc :=
  ⟨by decide, rfl⟩

/-- C4 as amended: for every operation the metadata loop extracts from
the service-client contract, the record's `name` is the operation name
with the first occurrence of `"get_"` removed — which coincides with
stripping a leading `"get_"` prefix on every contract operation — and
its `description` is the operation's entire documentation string (empty
when absent), which equals the first line only when the documentation is
a single line. -/
theorem service_method_extraction :
    ∀ m ∈ contractMethods,
      (ServiceMethod.fromMethod m).name = stripLeadingGet m.name ∧
      (ServiceMethod.fromMethod m).description = m.doc.getD "" := by
  decide

/-- Witness for the amended C4 at `get_liked_posts`. -/
theorem service_method_extraction_witness :
    (ServiceMethod.fromMethod ⟨"get_liked_posts", some "Get liked posts.", []⟩).name =
      stripLeadingGet "get_liked_posts" ∧
    (ServiceMethod.fromMethod ⟨"get_liked_posts", some "Get liked posts.", []⟩).description =
      (some "Get liked posts." : Option String).getD "" :=
  service_method_extraction ⟨"get_liked_posts", some "Get liked posts.", []⟩ (by decide)

/-! ## Conservation and per-source order of the merge (C1) -/

/-- Membership in a heap splits into the popped entry and the rest. -/
theorem popMin_mem_split {ε α : Type} {h h' : List (HeapEntry ε α)} {e x : HeapEntry ε α}
    (hp : popMin h = some (e, h')) (hx : x ∈ h) : x = e ∨ x ∈ h' := by
  obtain ⟨l, r, hh, hh'⟩ := popMin_decomp hp
  subst hh hh'
  rcases List.mem_append.1 hx with hl | hcr
  · exact Or.inr (List.mem_append.2 (Or.inl hl))
  · rcases List.mem_cons.1 hcr with he | hr
    · exact Or.inl he
    · exact Or.inr (List.mem_append.2 (Or.inr hr))

/-- Draining a prepared heap of error-free entries whose items are all
tagged with their entry's tie-break order (orders pairwise distinct)
ends in exhaustion, yields as many items as the heap accounts for, and
the items carrying a given entry's order are exactly that entry's items
in their original sequence — every other order tag never occurs. -/
theorem mergedRun_tagged {α : Type} (key : α → Nat) :
    ∀ (n : Nat) (h : List (HeapEntry Unit (Nat × α))) (c : Nat),
      heapSize h + 1 ≤ n →
      (∀ e ∈ h, e.terminal = none) →
      (∀ e ∈ h, ∀ p ∈ entryItems e, p.1 = e.order) →
      List.Pairwise (fun a b => a.order ≠ b.order) h →
      (mergedRun (fun p => key p.2) none n ⟨h, c⟩).outcome = RunEnd.exhausted ∧
      (mergedRun (fun p => key p.2) none n ⟨h, c⟩).items.length = heapSize h ∧
      (∀ e ∈ h, (mergedRun (fun p => key p.2) none n ⟨h, c⟩).items.filter
          (fun p => p.1 == e.order) = entryItems e) ∧
      (∀ o : Nat, (∀ e ∈ h, e.order ≠ o) →
        (mergedRun (fun p => key p.2) none n ⟨h, c⟩).items.filter (fun p => p.1 == o) = []) := by
  intro n
  induction n with
  | zero => intro h c hfuel; exact absurd hfuel (Nat.not_succ_le_zero _)
  | succ n ih =>
    intro h c hfuel hterm htag hpw
    cases hpop : popMin h with
    | none =>
      have hnil := popMin_eq_none hpop
      subst hnil
      refine ⟨rfl, rfl, ?_, ?_⟩
      · intro e he; simp at he
      · intro o ho; rfl
    | some pr =>
      obtain ⟨e, h1⟩ := pr
      have hmem : e ∈ h := popMin_mem hpop
      have hsize : heapSize h = entrySize e + heapSize h1 := popMin_size hpop
      have hsub : ∀ x ∈ h1, x ∈ h := popMin_subset hpop
      have horders := popMin_orders hpop hpw
      have hterm_e : e.terminal = none := hterm e hmem
      have htag_e : ∀ p ∈ entryItems e, p.1 = e.order := htag e hmem
      have hval_tag : e.value.1 = e.order := htag_e e.value (List.mem_cons_self _ _)
      cases hrest : e.rest with
      | nil =>
        have hpull : mergedPull (fun p => key p.2) none (⟨h, c⟩ : MergedState Unit (Nat × α)) =
            PullResult.item e.value ⟨h1, c + 1⟩ := by
          simp [mergedPull, hpop, hrest, hterm_e, limitTruthy]
        have hrun : mergedRun (fun p => key p.2) none (n + 1)
              (⟨h, c⟩ : MergedState Unit (Nat × α)) =
            ⟨e.value :: (mergedRun (fun p => key p.2) none n ⟨h1, c + 1⟩).items,
             (mergedRun (fun p => key p.2) none n ⟨h1, c + 1⟩).outcome,
             (mergedRun (fun p => key p.2) none n ⟨h1, c + 1⟩).final⟩ := by
          simp only [mergedRun, hpull]
        have hesize : entrySize e = 1 := by simp [entrySize, hrest]
        obtain ⟨ih_out, ih_len, ih_filt, ih_none⟩ :=
          ih h1 (c + 1) (by omega) (fun x hx => hterm x (hsub x hx))
            (fun x hx => htag x (hsub x hx)) horders.1
        refine ⟨?_, ?_, ?_, ?_⟩
        · rw [hrun]; exact ih_out
        · rw [hrun]; dsimp; omega
        · intro e2 he2
          rw [hrun]; dsimp
          rcases popMin_mem_split hpop he2 with rfl | he2'
          · rw [List.filter_cons_of_pos (by simp [hval_tag])]
            rw [ih_none e2.order horders.2]
            simp [entryItems, hrest]
          · rw [List.filter_cons_of_neg (by
                simp only [beq_iff_eq, hval_tag]
                exact fun heq => (horders.2 e2 he2') heq.symm)]
            exact ih_filt e2 he2'
        · intro o ho
          rw [hrun]; dsimp
          rw [List.filter_cons_of_neg (by
              simp only [beq_iff_eq, hval_tag]
              exact ho e hmem)]
          exact ih_none o (fun x hx => ho x (hsub x hx))
      | cons v r =>
        have hpull : mergedPull (fun p => key p.2) none (⟨h, c⟩ : MergedState Unit (Nat × α)) =
            PullResult.item e.value
              ⟨⟨key v.2, e.order, v, r, e.terminal⟩ :: h1, c + 1⟩ := by
          simp [mergedPull, hpop, hrest, limitTruthy]
        have hrun : mergedRun (fun p => key p.2) none (n + 1)
              (⟨h, c⟩ : MergedState Unit (Nat × α)) =
            ⟨e.value :: (mergedRun (fun p => key p.2) none n
                ⟨⟨key v.2, e.order, v, r, e.terminal⟩ :: h1, c + 1⟩).items,
             (mergedRun (fun p => key p.2) none n
                ⟨⟨key v.2, e.order, v, r, e.terminal⟩ :: h1, c + 1⟩).outcome,
             (mergedRun (fun p => key p.2) none n
                ⟨⟨key v.2, e.order, v, r, e.terminal⟩ :: h1, c + 1⟩).final⟩ := by
          simp only [mergedRun, hpull]
        have hitems_sub : ∀ p ∈ (v :: r : List (Nat × α)), p ∈ entryItems e := by
          intro p hp
          show p ∈ e.value :: e.rest
          rw [hrest]
          exact List.mem_cons_of_mem _ hp
        have hterm' : ∀ x ∈ (⟨key v.2, e.order, v, r, e.terminal⟩ :: h1 :
            List (HeapEntry Unit (Nat × α))), x.terminal = none := by
          intro x hx
          rcases List.mem_cons.1 hx with rfl | hx'
          · exact hterm_e
          · exact hterm x (hsub x hx')
        have htag' : ∀ x ∈ (⟨key v.2, e.order, v, r, e.terminal⟩ :: h1 :
            List (HeapEntry Unit (Nat × α))), ∀ p ∈ entryItems x, p.1 = x.order := by
          intro x hx
          rcases List.mem_cons.1 hx with rfl | hx'
          · intro p hp
            exact htag_e p (hitems_sub p hp)
          · exact htag x (hsub x hx')
        have hpw' : List.Pairwise (fun a b => a.order ≠ b.order)
            (⟨key v.2, e.order, v, r, e.terminal⟩ :: h1 :
              List (HeapEntry Unit (Nat × α))) := by
          refine List.pairwise_cons.2 ⟨?_, horders.1⟩
          intro x hx
          exact Ne.symm (horders.2 x hx)
        have hsize' : heapSize (⟨key v.2, e.order, v, r, e.terminal⟩ :: h1 :
            List (HeapEntry Unit (Nat × α))) + 1 = heapSize h := by
          have h2 : entrySize e = r.length + 2 := by simp [entrySize, hrest]
          have h3 : heapSize (⟨key v.2, e.order, v, r, e.terminal⟩ :: h1 :
              List (HeapEntry Unit (Nat × α))) = r.length + 1 + heapSize h1 := by
            simp [heapSize, entrySize]
          omega
        obtain ⟨ih_out, ih_len, ih_filt, ih_none⟩ :=
          ih (⟨key v.2, e.order, v, r, e.terminal⟩ :: h1) (c + 1) (by omega) hterm' htag' hpw'
        refine ⟨?_, ?_, ?_, ?_⟩
        · rw [hrun]; exact ih_out
        · rw [hrun]; dsimp; omega
        · intro e2 he2
          rw [hrun]; dsimp
          rcases popMin_mem_split hpop he2 with rfl | he2'
          · rw [List.filter_cons_of_pos (by simp [hval_tag])]
            have := ih_filt ⟨key v.2, e2.order, v, r, e2.terminal⟩ (List.mem_cons_self _ _)
            rw [this]
            simp [entryItems, hrest]
          · rw [List.filter_cons_of_neg (by
                simp only [beq_iff_eq, hval_tag]
                exact fun heq => (horders.2 e2 he2') heq.symm)]
            exact ih_filt e2 (List.mem_cons_of_mem _ he2')
        · intro o ho
          rw [hrun]; dsimp
          rw [List.filter_cons_of_neg (by
              simp only [beq_iff_eq, hval_tag]
              exact ho e hmem)]
          refine ih_none o ?_
          intro x hx
          rcases List.mem_cons.1 hx with rfl | hx'
          · exact ho e hmem
          · exact ho x (hsub x hx')

/-- `_prepare` over tagged sources: it succeeds, the initial heap is
error-free, every entry's items carry the entry's order as tag, orders
are pairwise distinct and at least the starting index, the heap accounts
for all items, and each source index is represented by exactly its
(possibly dropped) entry. -/
theorem prepareE_tagged {α : Type} (key : α → Nat) :
    ∀ (sources : List (List α)) (n : Nat),
      ∃ h0, prepareE (fun p => key p.2) n (tagSourcesFrom n sources) = .ok h0 ∧
        (∀ e ∈ h0, e.terminal = none) ∧
        (∀ e ∈ h0, ∀ p ∈ entryItems e, p.1 = e.order) ∧
        List.Pairwise (fun a b => a.order ≠ b.order) h0 ∧
        (∀ e ∈ h0, n ≤ e.order) ∧
        heapSize h0 = (sources.map List.length).sum ∧
        (∀ (i : Nat) (hi : i < sources.length),
          (sources.get ⟨i, hi⟩ = [] ∧ ∀ e ∈ h0, e.order ≠ n + i) ∨
          (∃ e ∈ h0, e.order = n + i ∧
            entryItems e = (sources.get ⟨i, hi⟩).map (fun x => (n + i, x)))) := by
  intro sources
  induction sources with
  | nil =>
    intro n
    refine ⟨[], rfl, by simp, by simp, by simp, by simp, by simp [heapSize], ?_⟩
    intro i hi
    exact absurd hi (by simp)
  | cons s rest ihs =>
    intro n
    obtain ⟨h1, hok, hterm1, htag1, hpw1, hge1, hsz1, hidx1⟩ := ihs (n + 1)
    cases s with
    | nil =>
      refine ⟨h1, hok, hterm1, htag1, hpw1, ?_, ?_, ?_⟩
      · intro e he
        exact Nat.le_of_succ_le (hge1 e he)
      · simpa using hsz1
      · intro i hi
        cases i with
        | zero =>
          left
          refine ⟨rfl, ?_⟩
          intro e he
          have := hge1 e he
          omega
        | succ j =>
          have hj : j < rest.length := by simpa using hi
          rcases hidx1 j hj with ⟨hnil, hno⟩ | ⟨e, he, hord, hitems⟩
          · left
            refine ⟨by simpa using hnil, ?_⟩
            intro e he
            have := hno e he
            omega
          · right
            refine ⟨e, he, by omega, ?_⟩
            have harith : n + 1 + j = n + (j + 1) := by omega
            rw [hitems]
            simp [harith]
    | cons v vr =>
      refine ⟨⟨key v, n, (n, v), vr.map (fun x => (n, x)), none⟩ :: h1, ?_, ?_, ?_, ?_, ?_, ?_, ?_⟩
      · simp only [tagSourcesFrom, List.map, prepareE, hok]
      · intro x hx
        rcases List.mem_cons.1 hx with rfl | hx'
        · rfl
        · exact hterm1 x hx'
      · intro x hx
        rcases List.mem_cons.1 hx with rfl | hx'
        · intro p hp
          rcases List.mem_cons.1 hp with rfl | hp'
          · rfl
          · obtain ⟨y, hy, rfl⟩ := List.mem_map.1 hp'
            rfl
        · exact htag1 x hx'
      · refine List.pairwise_cons.2 ⟨?_, hpw1⟩
        intro x hx
        have := hge1 x hx
        dsimp
        omega
      · intro x hx
        rcases List.mem_cons.1 hx with rfl | hx'
        · exact Nat.le_refl _
        · exact Nat.le_of_succ_le (hge1 x hx')
      · have h4 : heapSize ((⟨key v, n, (n, v), vr.map (fun x => (n, x)), none⟩ :
              HeapEntry Unit (Nat × α)) :: h1) = vr.length + 1 + heapSize h1 := by
          simp [heapSize, entrySize]
        rw [h4, hsz1]
        simp
      · intro i hi
        cases i with
        | zero =>
          right
          refine ⟨⟨key v, n, (n, v), vr.map (fun x => (n, x)), none⟩,
            List.mem_cons_self _ _, by simp, ?_⟩
          simp [entryItems]
        | succ j =>
          have hj : j < rest.length := by simpa using hi
          rcases hidx1 j hj with ⟨hnil, hno⟩ | ⟨e, he, hord, hitems⟩
          · left
            refine ⟨by simpa using hnil, ?_⟩
            intro x hx
            rcases List.mem_cons.1 hx with rfl | hx'
            · dsimp
              omega
            · have := hno x hx'
              omega
          · right
            refine ⟨e, List.mem_cons_of_mem _ he, by omega, ?_⟩
            have harith : n + 1 + j = n + (j + 1) := by omega
            rw [hitems]
            simp [harith]

/-- C1: for finitely many finite input sources and no limit, draining a
`MergedPaginator` ends in normal exhaustion, yields exactly as many
items as all sources together, and — with every item tagged by its
source's registration index, so each output item is attributable to
exactly one source — the items attributed to source `i` are exactly
source `i`'s items in their original relative order. -/
theorem merged_drain_conservation {α : Type} (key : α → Nat) (sources : List (List α)) :
    (mergedDrainAll (fun p => key p.2) none (tagSourcesFrom 0 sources)).outcome
        = RunEnd.exhausted ∧
    (mergedDrainAll (fun p => key p.2) none (tagSourcesFrom 0 sources)).items.length
        = (sources.map List.length).sum ∧
    (∀ (i : Nat) (hi : i < sources.length),
      ((mergedDrainAll (fun p => key p.2) none (tagSourcesFrom 0 sources)).items.filter
          (fun p => p.1 == i)).map Prod.snd = sources.get ⟨i, hi⟩) := by
  obtain ⟨h0, hok, hterm0, htag0, hpw0, hge0, hsz0, hidx0⟩ := prepareE_tagged key sources 0
  have hdrain : mergedDrainAll (fun p => key p.2) none (tagSourcesFrom 0 sources) =
      mergedRun (fun p => key p.2) none (heapSize h0 + 1) ⟨h0, 0⟩ := by
    simp only [mergedDrainAll, hok]
  obtain ⟨hout, hlen, hfilt, hnone⟩ :=
    mergedRun_tagged key (heapSize h0 + 1) h0 0 (Nat.le_refl _) hterm0 htag0 hpw0
  refine ⟨?_, ?_, ?_⟩
  · rw [hdrain]
    exact hout
  · rw [hdrain, hlen, hsz0]
  · intro i hi
    rw [hdrain]
    rcases hidx0 i hi with ⟨hnil, hno⟩ | ⟨e, he, hord, hitems⟩
    · have hno' : ∀ e ∈ h0, e.order ≠ i := by
        intro e he
        have := hno e he
        omega
      rw [hnone i hno', hnil]
      rfl
    · have hord' : e.order = i := by omega
      have hfilt' := hfilt e he
      rw [hord'] at hfilt'
      rw [hfilt', hitems]
      simp

/-- Witness for C1 on the concrete sources `[[3, 1], [2]]`: the items
attributed to source 0 are `[3, 1]` in order. -/
theorem merged_drain_conservation_witness :
    ((mergedDrainAll (fun p : Nat × Nat => p.2) none (tagSourcesFrom 0 [[3, 1], [2]])).items.filter
        (fun p => p.1 == 0)).map Prod.snd = [3, 1] :=
  (merged_drain_conservation (fun x : Nat => x) [[3, 1], [2]]).2.2 0 (by decide)

/-! ## Eager flatten versus lazy drain (C7) -/

/-- `_prepare` over plain error-free sources builds exactly the heap
`heapq.merge` starts from. -/
theorem prepareE_pure {α : Type} (key : α → Nat) :
    ∀ (sources : List (List α)) (i : Nat),
      prepareE key i (pureSources sources) = .ok (heapqPrepare key i sources) := by
  intro sources
  induction sources with
  | nil => intro i; rfl
  | cons s rest ihs =>
    intro i
    cases s with
    | nil =>
      show prepareE key i (⟨[], none⟩ :: pureSources rest) = _
      rw [show prepareE key i (⟨[], none⟩ :: pureSources rest) =
            prepareE key (i + 1) (pureSources rest) from rfl, ihs]
      rfl
    | cons v vr =>
      show prepareE key i (⟨v :: vr, none⟩ :: pureSources rest) = _
      simp only [prepareE, ihs]
      rfl

/-- The `heapq.merge` starting heap is error-free. -/
theorem heapqPrepare_terminal {α : Type} (key : α → Nat) :
    ∀ (sources : List (List α)) (i : Nat) (e : HeapEntry Unit α),
      e ∈ heapqPrepare key i sources → e.terminal = none := by
  intro sources
  induction sources with
  | nil => intro i e he; simp [heapqPrepare] at he
  | cons s rest ihs =>
    intro i e he
    cases s with
    | nil => exact ihs (i + 1) e he
    | cons v vr =>
      rcases List.mem_cons.1 he with rfl | he'
      · rfl
      · exact ihs (i + 1) e he'

/-- On an error-free heap the lazy `__anext__` loop with no limit and
the `heapq.merge` loop produce the same item sequence, and the lazy loop
ends in exhaustion. -/
theorem mergedRun_pure {α : Type} (key : α → Nat) :
    ∀ (n : Nat) (h : List (HeapEntry Unit α)) (c : Nat),
      heapSize h + 1 ≤ n →
      (∀ e ∈ h, e.terminal = none) →
      (mergedRun key none n (⟨h, c⟩ : MergedState Unit α)).items = heapqRun key n h ∧
      (mergedRun key none n (⟨h, c⟩ : MergedState Unit α)).outcome = RunEnd.exhausted := by
  intro n
  induction n with
  | zero => intro h c hfuel; exact absurd hfuel (Nat.not_succ_le_zero _)
  | succ n ih =>
    intro h c hfuel hterm
    cases hpop : popMin h with
    | none =>
      have hnil := popMin_eq_none hpop
      subst hnil
      exact ⟨rfl, rfl⟩
    | some pr =>
      obtain ⟨e, h1⟩ := pr
      have hmem : e ∈ h := popMin_mem hpop
      have hsize : heapSize h = entrySize e + heapSize h1 := popMin_size hpop
      have hsub : ∀ x ∈ h1, x ∈ h := popMin_subset hpop
      have hterm_e : e.terminal = none := hterm e hmem
      cases hrest : e.rest with
      | nil =>
        have hpull : mergedPull key none (⟨h, c⟩ : MergedState Unit α) =
            PullResult.item e.value ⟨h1, c + 1⟩ := by
          simp [mergedPull, hpop, hrest, hterm_e, limitTruthy]
        have hrun : mergedRun key none (n + 1) (⟨h, c⟩ : MergedState Unit α) =
            ⟨e.value :: (mergedRun key none n ⟨h1, c + 1⟩).items,
             (mergedRun key none n ⟨h1, c + 1⟩).outcome,
             (mergedRun key none n ⟨h1, c + 1⟩).final⟩ := by
          simp only [mergedRun, hpull]
        have hhq : heapqRun key (n + 1) h = e.value :: heapqRun key n h1 := by
          simp only [heapqRun, hpop, hrest]
        have hesize : entrySize e = 1 := by simp [entrySize, hrest]
        obtain ⟨ih_items, ih_out⟩ :=
          ih h1 (c + 1) (by omega) (fun x hx => hterm x (hsub x hx))
        refine ⟨?_, ?_⟩
        · rw [hrun, hhq]
          dsimp
          rw [ih_items]
        · rw [hrun]
          exact ih_out
      | cons v r =>
        have hpull : mergedPull key none (⟨h, c⟩ : MergedState Unit α) =
            PullResult.item e.value ⟨⟨key v, e.order, v, r, none⟩ :: h1, c + 1⟩ := by
          simp [mergedPull, hpop, hrest, hterm_e, limitTruthy]
        have hrun : mergedRun key none (n + 1) (⟨h, c⟩ : MergedState Unit α) =
            ⟨e.value :: (mergedRun key none n ⟨⟨key v, e.order, v, r, none⟩ :: h1, c + 1⟩).items,
             (mergedRun key none n ⟨⟨key v, e.order, v, r, none⟩ :: h1, c + 1⟩).outcome,
             (mergedRun key none n ⟨⟨key v, e.order, v, r, none⟩ :: h1, c + 1⟩).final⟩ := by
          simp only [mergedRun, hpull]
        have hhq : heapqRun key (n + 1) h =
            e.value :: heapqRun key n (⟨key v, e.order, v, r, none⟩ :: h1) := by
          simp only [heapqRun, hpop, hrest]
        have hterm' : ∀ x ∈ (⟨key v, e.order, v, r, none⟩ :: h1 :
            List (HeapEntry Unit α)), x.terminal = none := by
          intro x hx
          rcases List.mem_cons.1 hx with rfl | hx'
          · rfl
          · exact hterm x (hsub x hx')
        have hsize' : heapSize (⟨key v, e.order, v, r, none⟩ :: h1 :
            List (HeapEntry Unit α)) + 1 = heapSize h := by
          have h2 : entrySize e = r.length + 2 := by simp [entrySize, hrest]
          have h3 : heapSize (⟨key v, e.order, v, r, none⟩ :: h1 :
              List (HeapEntry Unit α)) = r.length + 1 + heapSize h1 := by
            simp [heapSize, entrySize]
          omega
        obtain ⟨ih_items, ih_out⟩ :=
          ih (⟨key v, e.order, v, r, none⟩ :: h1) (c + 1) (by omega) hterm'
        refine ⟨?_, ?_⟩
        · rw [hrun, hhq]
          dsimp
          rw [ih_items]
        · rw [hrun]
          exact ih_out

/-- C7: on a freshly constructed `MergedPaginator` with no limit, the
eager bulk-drain `flatten` (drain every source, `heapq.merge`, slice)
returns exactly the sequence the lazy one-at-a-time drain yields — same
items, same length, same order among equal keys — and the lazy drain
ends in normal exhaustion. -/
theorem merged_flatten_eq_lazy_drain {α : Type} (key : α → Nat) (sources : List (List α)) :
    mergedFlattenEager key none sources =
      (mergedDrainAll key none (pureSources sources)).items ∧
    (mergedDrainAll key none (pureSources sources)).outcome = RunEnd.exhausted := by
  have hprep := prepareE_pure key sources 0
  have hdrain : mergedDrainAll key none (pureSources sources) =
      mergedRun key none (heapSize (heapqPrepare key 0 sources) + 1)
        ⟨heapqPrepare key 0 sources, 0⟩ := by
    simp only [mergedDrainAll, hprep]
  obtain ⟨hitems, hout⟩ := mergedRun_pure key (heapSize (heapqPrepare key 0 sources) + 1)
    (heapqPrepare key 0 sources) 0 (Nat.le_refl _)
    (fun e he => heapqPrepare_terminal key sources 0 e he)
  constructor
  · rw [hdrain, hitems]
    rfl
  · rw [hdrain]
    exact hout
